import Mathlib

/-
Verification of the layered YAML configuration resolver (yaml.go).

The embedding models:
  * the generic parsed value (Go interface values: nil, scalar, []interface,
    map[interface]interface) as the inductive type GoVal, with strings as
    lists of characters and map keys already rendered to text
    (the source renders keys with a default format before use);
  * mergeMaps as a pure function returning Except, with the Go in-place map
    mutation replaced by functional insertion (the value-level result is
    identical, since the iteration ranges over the source map only);
  * the lookup tree Find / Children over the merged value;
  * the variable-resolution closure returned by replace.

Go string indexing is modelled on lists of characters; strings.EqualFold is
modelled as equality of the Char.toLower images, which is faithful on the
ASCII keys and paths this configuration system deals with.
-/

set_option autoImplicit false

namespace Config

/-- Strings of the Go source are modelled as lists of characters. -/
abbrev Str := List Char

/-- A parsed generic document value: Go interface values as produced by the
YAML unmarshaller. `nil` is the nil interface (absent or explicit null);
map keys are modelled already rendered to text. -/
inductive GoVal where
  | nil : GoVal
  | scalar (s : Str) : GoVal
  | arr (elems : List GoVal) : GoVal
  | map (entries : List (Str × GoVal)) : GoVal

/-- The Go test `v == nil` on an interface value. -/
def isNil : GoVal → Bool
  | .nil => true
  | _ => false

/-- The Go test whether a value is a `map[interface\x7b\x7d]interface\x7b\x7d`. -/
def isMap : GoVal → Bool
  | .map _ => true
  | _ => false

/-- Node type tags of the lookup tree (valueNode, objectNode, arrayNode). -/
inductive nodeType where
  | valueNode : nodeType
  | objectNode : nodeType
  | arrayNode : nodeType
deriving DecidableEq

/-- getNodeType: the type switch classifying a generic value. -/
def getNodeType : GoVal → nodeType
  | .map _ => .objectNode
  | .arr _ => .arrayNode
  | _ => .valueNode

/-- Go map indexing `dstMap[k]`: yields the zero value (nil interface) when
the key is missing, and the stored value (possibly nil) when present. -/
def mapFind (d : List (Str × GoVal)) (k : Str) : GoVal :=
  match d with
  | [] => .nil
  | (k', v) :: rest => if k' = k then v else mapFind rest k

/-- Optional lookup distinguishing a missing key from an explicit nil value. -/
def mapFind? (d : List (Str × GoVal)) (k : Str) : Option GoVal :=
  match d with
  | [] => none
  | (k', v) :: rest => if k' = k then some v else mapFind? rest k

/-- Go map assignment `dstMap[k] = v`: replace the value at the key, or add
the binding when the key is missing. -/
def mapInsert (d : List (Str × GoVal)) (k : Str) (v : GoVal) : List (Str × GoVal) :=
  match d with
  | [] => [(k, v)]
  | (k', v') :: rest => if k' = k then (k', v) :: rest else (k', v') :: mapInsert rest k v

/-- Keys of a Go map are pairwise distinct; an association list models one
faithfully when its keys are nodup. -/
def nodupKeys (s : List (Str × GoVal)) : Prop := (s.map Prod.fst).Nodup

/-- The merge type-conflict error: source errors with fmt.Errorf carrying the
destination type and both operands; we carry both operands structurally. -/
inductive MergeErr where
  | conflict (dst src : GoVal) : MergeErr

mutual

/-- mergeMaps: merge two generic values.  Transcribed from the source:
nil destination yields the source, nil source yields the destination; a map
source requires a map destination (else a conflict error) and is folded into
it key by key; any other source overwrites the destination outright. -/
def mergeMaps (dst src : GoVal) : Except MergeErr GoVal :=
  if isNil dst then .ok src
  else if isNil src then .ok dst
  else
    match src with
    | .map s =>
      match dst with
      | .map d =>
        match mergeEntries d s with
        | .error e => .error e
        | .ok m => .ok (.map m)
      | _ => .error (.conflict dst (.map s))
    | _ => .ok src
termination_by sizeOf src

/-- The `for k, v := range s` loop body of mergeMaps: for each source entry,
if the destination holds nil at the key (missing key or explicit null) the
source value is assigned directly, otherwise the two values are merged
recursively and the result assigned. -/
def mergeEntries (d : List (Str × GoVal)) (s : List (Str × GoVal)) :
    Except MergeErr (List (Str × GoVal)) :=
  match s with
  | [] => .ok d
  | (k, v) :: rest =>
    let oldVal := mapFind d k
    if isNil oldVal then mergeEntries (mapInsert d k v) rest
    else
      match mergeMaps oldVal v with
      | .error e => .error e
      | .ok tmp => mergeEntries (mapInsert d k tmp) rest
termination_by sizeOf s

end

/-- newYAMLProviderCore: fold the parsed documents left to right through
mergeMaps, starting from the nil root.  We model the resulting merged root
value (the provider then wraps it in the synthetic root node). -/
def newYAMLProviderCore (docs : List GoVal) : Except MergeErr GoVal :=
  docs.foldlM mergeMaps .nil

/-- The separator between variable key and default (_envSeparator, the text
":" in the source, a single character). -/
def _envSeparator : Char := ':'

/-- The reserved empty-string default sentinel (_emptyDefault, two
double-quote characters). -/
def _emptyDefault : Str := ['"', '"']

/-- Index of the first occurrence of a character (strings.Index, with the
missing case as none instead of -1). -/
def firstIndexOf (l : Str) (c : Char) : Option Nat :=
  match l with
  | [] => none
  | x :: xs =>
    if x = c then some 0
    else
      match firstIndexOf xs c with
      | some i => some (i + 1)
      | none => none

/-- The split of a token body at the first separator: everything before it is
the key, everything after it is the default (key = whole body and empty
default when no separator occurs). -/
def splitToken (inp : Str) : Str × Str :=
  match firstIndexOf inp _envSeparator with
  | none => (inp, [])
  | some i => (inp.take i, inp.drop (i + 1))

/-- The expansion error: the source errors with fmt.Errorf naming the key
(default is empty for the key); we carry the key structurally. -/
inductive ReplaceErr where
  | undefinedVariable (key : Str) : ReplaceErr

/-- replace: the variable-resolution closure.  Transcribed from the source:
split the token body into key and default at the first separator; a found
lookup wins outright; otherwise an empty default is an error, the sentinel
default yields the empty string, and any other default is taken verbatim. -/
def replace (lookUp : Str → Option Str) (inp : Str) : Except ReplaceErr Str :=
  let key := (splitToken inp).1
  let dflt := (splitToken inp).2
  match lookUp key with
  | some envVal => .ok envVal
  | none =>
    if dflt = [] then .error (.undefinedVariable key)
    else if dflt = _emptyDefault then .ok []
    else .ok dflt

/-- A node of the lookup tree: its key label together with the wrapped
generic value.  The node type tag stored by the source is always
`getNodeType value` (every construction site computes it that way), so it is
derived rather than stored. -/
structure yamlNode where
  key : Str
  value : GoVal

/-- The `for k, v := range slice` loop of Children for array nodes: one child
per element, labelled with the decimal rendering of its index
(strconv.Itoa). -/
def enumFrom (i : Nat) (elems : List GoVal) : List yamlNode :=
  match elems with
  | [] => []
  | v :: rest => ⟨(toString i).data, v⟩ :: enumFrom (i + 1) rest

/-- The child-list computation of Children: one child per map entry for an
object node (keys already rendered to text in the model), one child per
element with a decimal index label for an array node, and no children for a
value node.  The source dispatches on the stored node type, which always
equals `getNodeType value`. -/
def childrenOf (v : GoVal) : List yamlNode :=
  match v with
  | .map entries => entries.map (fun kv => ⟨kv.1, kv.2⟩)
  | .arr elems => enumFrom 0 elems
  | _ => []

/-- Modelled from the spec: the path separator constant `_separator` is
declared outside this source file; the spec fixes it as the character
sitting between dotted-path segments, a period. -/
def _separator : Char := '.'

/-- strings.EqualFold, modelled as equality of the lowercase images
(faithful for ASCII). -/
def eqFold (a b : Str) : Bool :=
  a.map Char.toLower == b.map Char.toLower

/-- Index of the last occurrence of a character (strings.LastIndex, with the
missing case as none instead of -1). -/
def lastIndexOf (l : Str) (c : Char) : Option Nat :=
  match l with
  | [] => none
  | x :: xs =>
    match lastIndexOf xs c with
    | some i => some (i + 1)
    | none => if x = c then some 0 else none

/-- The inner `for _, v := range n.Children()` loop of Find: scan the
children for one whose key case-insensitively equals the current candidate;
such a child is the result outright when the candidate is the whole path,
and otherwise the search descends into it on the suffix of the path after
the candidate and its separator, falling through to the next child when the
descent finds nothing.  The descent is abstracted as a function parameter so
the recursion is structural. -/
def scanChildren (descend : yamlNode → Str → Option yamlNode) :
    List yamlNode → Str → Str → Option yamlNode
  | [], _, _ => none
  | v :: rest, dottedPath, curr =>
    if eqFold v.key curr then
      if curr == dottedPath then some v
      else
        match descend v (dottedPath.drop (curr.length + 1)) with
        | some node => some node
        | none => scanChildren descend rest dottedPath curr
    else scanChildren descend rest dottedPath curr

/-- The outer `for curr := dottedPath; len(curr) != 0` loop of Find: while
the candidate is nonempty, scan the children; when no child yields a result,
truncate the candidate to everything before the last separator, provided
that separator is at a position greater than zero; otherwise fail. -/
def findIter (descend : yamlNode → Str → Option yamlNode)
    (cs : List yamlNode) (dottedPath curr : Str) : Option yamlNode :=
  if curr.length = 0 then none
  else
    match scanChildren descend cs dottedPath curr with
    | some node => some node
    | none =>
      match h : lastIndexOf curr _separator with
      | some last =>
        if 0 < last then findIter descend cs dottedPath (curr.take last)
        else none
      | none => none
termination_by curr.length
decreasing_by
  simp_wf
  have hb : ∀ (l : Str) (i : Nat), lastIndexOf l _separator = some i → i < l.length := by
    intro l
    induction l with
    | nil => intro i hi; simp [lastIndexOf] at hi
    | cons x xs ih =>
      intro i hi
      rw [lastIndexOf] at hi
      cases hx : lastIndexOf xs _separator with
      | some j =>
        rw [hx] at hi
        cases hi
        simpa using Nat.succ_lt_succ (ih j hx)
      | none =>
        rw [hx] at hi
        by_cases hc : x = _separator
        · simp [hc] at hi
          simp only [List.length_cons]
          omega
        · simp [hc] at hi
  have := hb curr last h
  omega

/-- Find, with a structural fuel bounding the depth of descent into child
nodes.  One unit of fuel is consumed per descent; `Find` below supplies fuel
exceeding the path length, which the descents (each strictly shortening the
path) can never exhaust. -/
def findFuel : Nat → yamlNode → Str → Option yamlNode
  | 0, _, _ => none
  | fuel + 1, n, dottedPath =>
    findIter (findFuel fuel) (childrenOf n.value) dottedPath dottedPath

/-- Find the first longest match in child nodes for the dotted path. -/
def Find (n : yamlNode) (dottedPath : Str) : Option yamlNode :=
  findFuel (dottedPath.length + 1) n dottedPath

/-- Modelled from the spec, section 4.2 steps 3 and 4: the list of candidate
keys tried at one node, from the longest (the whole remaining path) down,
each next candidate being the previous one truncated to everything before
its last separator, provided that separator sits at a position greater than
zero; an empty candidate is never tried. -/
def truncations (curr : Str) : List Str :=
  if curr.length = 0 then []
  else
    curr ::
      (match h : lastIndexOf curr _separator with
       | some last => if 0 < last then truncations (curr.take last) else []
       | none => [])
termination_by curr.length
decreasing_by
  simp_wf
  have hb : ∀ (l : Str) (i : Nat), lastIndexOf l _separator = some i → i < l.length := by
    intro l
    induction l with
    | nil => intro i hi; simp [lastIndexOf] at hi
    | cons x xs ih =>
      intro i hi
      rw [lastIndexOf] at hi
      cases hx : lastIndexOf xs _separator with
      | some j =>
        rw [hx] at hi
        cases hi
        simpa using Nat.succ_lt_succ (ih j hx)
      | none =>
        rw [hx] at hi
        by_cases hc : x = _separator
        · simp [hc] at hi
          simp only [List.length_cons]
          omega
        · simp [hc] at hi
  have := hb curr last h
  omega

/-- Modelled from the spec, section 4.2 step 2: try each candidate key in
turn against the children, keeping the first hit. -/
def tryCands (scan : Str → Option yamlNode) : List Str → Option yamlNode
  | [] => none
  | c :: rest =>
    match scan c with
    | some node => some node
    | none => tryCands scan rest

/-- Modelled from the spec, section 4.2: the resolution algorithm phrased as
iterating over the precomputed candidate list, longest first, scanning the
children for each candidate and descending on the true remainder. -/
def findSpecFuel : Nat → yamlNode → Str → Option yamlNode
  | 0, _, _ => none
  | fuel + 1, n, dottedPath =>
    tryCands
      (fun curr =>
        scanChildren (findSpecFuel fuel) (childrenOf n.value) dottedPath curr)
      (truncations dottedPath)

/-- The spec-phrased resolution at the same fuel as Find. -/
def FindSpec (n : yamlNode) (dottedPath : Str) : Option yamlNode :=
  findSpecFuel (dottedPath.length + 1) n dottedPath

/-- A heap of allocated child-node slices, for the aliasing-sensitive model
of Children: each Go slice allocation is a fresh index into this list. -/
abbrev Heap := List (List yamlNode)

/-- Allocate a fresh slice holding the given nodes; returns its index. -/
def halloc (h : Heap) (l : List yamlNode) : Nat × Heap :=
  (List.length h, h ++ [l])

/-- Read the slice at an index (out of range reads give the empty slice). -/
def hget (h : Heap) (i : Nat) : List yamlNode :=
  (List.get? h i).getD []

/-- Overwrite the slice at an index: the caller mutating a returned slice. -/
def hset (h : Heap) (i : Nat) (l : List yamlNode) : Heap :=
  List.set h i l

/-- The stateful view of a tree node for the Children method: the wrapped
value together with the cached children slice, a heap reference that is nil
until the first call. -/
structure yamlNodeState where
  key : Str
  value : GoVal
  children : Option Nat

/-- Children, transcribed with its cache effects: when the cache is nil it
is filled with the child list computed from the node value alone; every call
then allocates and returns a fresh copy of the cached slice.  The result is
the returned slice index, the updated node, and the updated heap. -/
def Children (n : yamlNodeState) (h : Heap) : Nat × yamlNodeState × Heap :=
  match n.children with
  | none =>
    let cs := childrenOf n.value
    let (cacheId, h1) := halloc h cs
    let n1 : yamlNodeState := { n with children := some cacheId }
    let (copyId, h2) := halloc h1 (hget h1 cacheId)
    (copyId, n1, h2)
  | some cacheId =>
    let (copyId, h2) := halloc h (hget h cacheId)
    (copyId, n, h2)

/-- Two characters differing at most in letter case: equal, or both letters
with the same lowercase image. -/
def charCaseVar (a b : Char) : Bool :=
  a == b || (a.isAlpha && b.isAlpha && a.toLower == b.toLower)

/-- Two paths differing only in letter case, character by character. -/
def pathCaseVar : Str → Str → Bool
  | [], [] => true
  | a :: as, b :: bs => charCaseVar a b && pathCaseVar as bs
  | _, _ => false

/-! ### Merge engine lemmas -/

theorem isNil_iff (v : GoVal) : isNil v = true ↔ v = .nil := by
  cases v <;> simp [isNil]

theorem isNil_false_iff (v : GoVal) : isNil v = false ↔ v ≠ .nil := by
  cases v <;> simp [isNil]

theorem mergeMaps_nil_left (v : GoVal) : mergeMaps .nil v = .ok v := by
  rw [mergeMaps.eq_def]
  rfl

theorem mergeMaps_nil_right (v : GoVal) : mergeMaps v .nil = .ok v := by
  rw [mergeMaps.eq_def]
  cases v <;> rfl

theorem mergeEntries_nil (d : List (Str × GoVal)) : mergeEntries d [] = .ok d := by
  rw [mergeEntries]

theorem mergeEntries_cons (d : List (Str × GoVal)) (k : Str) (v : GoVal)
    (rest : List (Str × GoVal)) :
    mergeEntries d ((k, v) :: rest) =
      if isNil (mapFind d k) then mergeEntries (mapInsert d k v) rest
      else
        match mergeMaps (mapFind d k) v with
        | .error e => .error e
        | .ok tmp => mergeEntries (mapInsert d k tmp) rest := by
  rw [mergeEntries]

theorem mergeMaps_map_map (d s : List (Str × GoVal)) :
    mergeMaps (.map d) (.map s) =
      match mergeEntries d s with
      | .error e => .error e
      | .ok m => .ok (.map m) := by
  rw [mergeMaps.eq_def]
  rfl

theorem mapFind?_insert_self (d : List (Str × GoVal)) (k : Str) (v : GoVal) :
    mapFind? (mapInsert d k v) k = some v := by
  induction d with
  | nil => simp [mapInsert, mapFind?]
  | cons kv rest ih =>
    obtain ⟨k', v'⟩ := kv
    by_cases hk : k' = k
    · simp [mapInsert, hk, mapFind?]
    · simp [mapInsert, hk, mapFind?, ih]

theorem mapFind?_insert_other (d : List (Str × GoVal)) (k k' : Str) (v : GoVal)
    (h : k ≠ k') : mapFind? (mapInsert d k v) k' = mapFind? d k' := by
  induction d with
  | nil => simp [mapInsert, mapFind?, h]
  | cons kv rest ih =>
    obtain ⟨k₁, v₁⟩ := kv
    by_cases hk : k₁ = k
    · subst hk
      simp [mapInsert, mapFind?, h]
    · simp [mapInsert, hk, mapFind?, ih]

theorem mapFind_eq_of_find? (d : List (Str × GoVal)) (k : Str) (w : GoVal)
    (h : mapFind? d k = some w) : mapFind d k = w := by
  induction d with
  | nil => simp [mapFind?] at h
  | cons kv rest ih =>
    obtain ⟨k₁, v₁⟩ := kv
    by_cases hk : k₁ = k
    · simp [mapFind?, hk] at h
      simp [mapFind, hk, h]
    · simp [mapFind?, hk] at h
      simp [mapFind, hk, ih h]

theorem mapFind_eq_nil_of_find?_none (d : List (Str × GoVal)) (k : Str)
    (h : mapFind? d k = none) : mapFind d k = .nil := by
  induction d with
  | nil => simp [mapFind]
  | cons kv rest ih =>
    obtain ⟨k₁, v₁⟩ := kv
    by_cases hk : k₁ = k
    · simp [mapFind?, hk] at h
    · simp [mapFind?, hk] at h
      simp [mapFind, hk, ih h]

theorem mapFind_insert_other (d : List (Str × GoVal)) (k k' : Str) (v : GoVal)
    (h : k ≠ k') : mapFind (mapInsert d k v) k' = mapFind d k' := by
  induction d with
  | nil => simp [mapInsert, mapFind, h]
  | cons kv rest ih =>
    obtain ⟨k₁, v₁⟩ := kv
    by_cases hk : k₁ = k
    · subst hk
      simp [mapInsert, mapFind, h]
    · simp [mapInsert, hk, mapFind, ih]

theorem mapFind?_eq_none_of_not_mem (s : List (Str × GoVal)) (k : Str)
    (h : k ∉ s.map Prod.fst) : mapFind? s k = none := by
  induction s with
  | nil => simp [mapFind?]
  | cons kv rest ih =>
    obtain ⟨k₁, v₁⟩ := kv
    simp only [List.map_cons, List.mem_cons] at h
    push_neg at h
    have hne : k₁ ≠ k := fun hh => h.1 hh.symm
    simp [mapFind?, hne, ih h.2]

/-- The per-key behaviour of the merge loop: after a successful fold of the
source entries into the destination, a key absent from the source keeps its
destination binding, and each key of the source is bound to the successful
recursive merge of the destination value at that key (the Go map read, nil
when missing) with the source value. -/
theorem mergeEntries_spec (s : List (Str × GoVal)) :
    ∀ d r, nodupKeys s → mergeEntries d s = .ok r →
      (∀ k, mapFind? s k = none → mapFind? r k = mapFind? d k) ∧
      (∀ k v, mapFind? s k = some v →
        ∃ u, mergeMaps (mapFind d k) v = .ok u ∧ mapFind? r k = some u) := by
  induction s with
  | nil =>
    intro d r _ h
    rw [mergeEntries_nil] at h
    cases h
    exact ⟨fun k _ => rfl, fun k v hv => by simp [mapFind?] at hv⟩
  | cons kv rest ih =>
    intro d r hnd h
    obtain ⟨k₀, v₀⟩ := kv
    have hnd' : nodupKeys rest := by
      simpa [nodupKeys] using (List.nodup_cons.mp hnd).2
    have hk₀ : k₀ ∉ rest.map Prod.fst := (List.nodup_cons.mp hnd).1
    rw [mergeEntries_cons] at h
    by_cases hnil : isNil (mapFind d k₀) = true
    · rw [if_pos hnil] at h
      obtain ⟨b1, b2⟩ := ih (mapInsert d k₀ v₀) r hnd' h
      constructor
      · intro k hk
        by_cases hkk : k₀ = k
        · simp [mapFind?, hkk] at hk
        · simp [mapFind?, hkk] at hk
          rw [b1 k hk, mapFind?_insert_other d k₀ k v₀ hkk]
      · intro k v hv
        by_cases hkk : k₀ = k
        · subst hkk
          simp [mapFind?] at hv
          subst hv
          refine ⟨v₀, ?_, ?_⟩
          · rw [(isNil_iff _).mp hnil]
            exact mergeMaps_nil_left v₀
          · rw [b1 k₀ (mapFind?_eq_none_of_not_mem rest k₀ hk₀)]
            exact mapFind?_insert_self d k₀ v₀
        · simp [mapFind?, hkk] at hv
          obtain ⟨u, hu1, hu2⟩ := b2 k v hv
          rw [mapFind_insert_other d k₀ k v₀ hkk] at hu1
          exact ⟨u, hu1, hu2⟩
    · rw [if_neg hnil] at h
      cases hm : mergeMaps (mapFind d k₀) v₀ with
      | error e => rw [hm] at h; cases h
      | ok tmp =>
        rw [hm] at h
        obtain ⟨b1, b2⟩ := ih (mapInsert d k₀ tmp) r hnd' h
        constructor
        · intro k hk
          by_cases hkk : k₀ = k
          · simp [mapFind?, hkk] at hk
          · simp [mapFind?, hkk] at hk
            rw [b1 k hk, mapFind?_insert_other d k₀ k tmp hkk]
        · intro k v hv
          by_cases hkk : k₀ = k
          · subst hkk
            simp [mapFind?] at hv
            subst hv
            refine ⟨tmp, hm, ?_⟩
            rw [b1 k₀ (mapFind?_eq_none_of_not_mem rest k₀ hk₀)]
            exact mapFind?_insert_self d k₀ tmp
          · simp [mapFind?, hkk] at hv
            obtain ⟨u, hu1, hu2⟩ := b2 k v hv
            rw [mapFind_insert_other d k₀ k tmp hkk] at hu1
            exact ⟨u, hu1, hu2⟩

/-- C2: a successful merge of two mappings is a mapping whose keys are the
union of both sides: a key absent from the source keeps the destination
binding unchanged, and a key of the source is bound to the recursive merge
of the destination value at that key with the source value (which, when the
key is absent from the destination, is the source value itself). -/
theorem merge_mapping_spec (d s : List (Str × GoVal)) (r : GoVal)
    (hs : nodupKeys s) (h : mergeMaps (.map d) (.map s) = .ok r) :
    ∃ m, r = .map m ∧
      (∀ k, (mapFind? m k).isSome ↔ ((mapFind? d k).isSome ∨ (mapFind? s k).isSome)) ∧
      (∀ k, mapFind? s k = none → mapFind? m k = mapFind? d k) ∧
      (∀ k v, mapFind? s k = some v →
        ∃ u, mergeMaps (mapFind d k) v = .ok u ∧ mapFind? m k = some u) := by
  rw [mergeMaps_map_map] at h
  cases hme : mergeEntries d s with
  | error e => rw [hme] at h; cases h
  | ok m =>
    rw [hme] at h
    cases h
    obtain ⟨b1, b2⟩ := mergeEntries_spec s d m hs hme
    refine ⟨m, rfl, ?_, b1, b2⟩
    intro k
    cases hsk : mapFind? s k with
    | none => rw [b1 k hsk]; simp
    | some v =>
      obtain ⟨u, _, hu2⟩ := b2 k v hsk
      rw [hu2]
      simp

/-- A closed witness discharging the hypotheses of merge_mapping_spec at the
deep-merge example of the spec. -/
theorem merge_mapping_spec_witness :
    nodupKeys [(['a'], GoVal.map [(['y'], GoVal.scalar ['9']), (['z'], GoVal.scalar ['3'])])] ∧
    mergeMaps
        (.map [(['a'], GoVal.map [(['x'], GoVal.scalar ['1']), (['y'], GoVal.scalar ['2'])])])
        (.map [(['a'], GoVal.map [(['y'], GoVal.scalar ['9']), (['z'], GoVal.scalar ['3'])])])
      = .ok (.map [(['a'], GoVal.map
          [(['x'], GoVal.scalar ['1']), (['y'], GoVal.scalar ['9']), (['z'], GoVal.scalar ['3'])])]) ∧
    (∃ m,
      GoVal.map [(['a'], GoVal.map
          [(['x'], GoVal.scalar ['1']), (['y'], GoVal.scalar ['9']), (['z'], GoVal.scalar ['3'])])]
        = GoVal.map m ∧
      (∀ k, (mapFind? m k).isSome ↔
        ((mapFind? [(['a'], GoVal.map [(['x'], GoVal.scalar ['1']), (['y'], GoVal.scalar ['2'])])] k).isSome ∨
         (mapFind? [(['a'], GoVal.map [(['y'], GoVal.scalar ['9']), (['z'], GoVal.scalar ['3'])])] k).isSome)) ∧
      (∀ k, mapFind? [(['a'], GoVal.map [(['y'], GoVal.scalar ['9']), (['z'], GoVal.scalar ['3'])])] k = none →
        mapFind? m k
          = mapFind? [(['a'], GoVal.map [(['x'], GoVal.scalar ['1']), (['y'], GoVal.scalar ['2'])])] k) ∧
      (∀ k v, mapFind? [(['a'], GoVal.map [(['y'], GoVal.scalar ['9']), (['z'], GoVal.scalar ['3'])])] k = some v →
        ∃ u, mergeMaps
            (mapFind [(['a'], GoVal.map [(['x'], GoVal.scalar ['1']), (['y'], GoVal.scalar ['2'])])] k) v
          = .ok u ∧ mapFind? m k = some u)) := by
  have hnd : nodupKeys
      [(['a'], GoVal.map [(['y'], GoVal.scalar ['9']), (['z'], GoVal.scalar ['3'])])] := by
    simp [nodupKeys]
  have hmm : mergeMaps
        (.map [(['a'], GoVal.map [(['x'], GoVal.scalar ['1']), (['y'], GoVal.scalar ['2'])])])
        (.map [(['a'], GoVal.map [(['y'], GoVal.scalar ['9']), (['z'], GoVal.scalar ['3'])])])
      = .ok (.map [(['a'], GoVal.map
          [(['x'], GoVal.scalar ['1']), (['y'], GoVal.scalar ['9']), (['z'], GoVal.scalar ['3'])])]) := by
    simp [mergeMaps.eq_def, mergeEntries_cons, mergeEntries_nil, mapFind, mapInsert, isNil]
  exact ⟨hnd, hmm, merge_mapping_spec _ _ _ hnd hmm⟩

/-- C9: during a merge of two mappings, a key whose destination value is an
explicit null is treated as absent: the source value at that key is assigned
directly, with no recursive merge and no possibility of a conflict at that
key, even when the source value is itself a mapping. -/
theorem merge_null_dst_overwrites (d : List (Str × GoVal)) (k : Str) (v : GoVal)
    (h : mapFind? d k = some .nil) :
    mergeMaps (.map d) (.map [(k, v)]) = .ok (.map (mapInsert d k v)) := by
  rw [mergeMaps_map_map, mergeEntries_cons, mapFind_eq_of_find? d k .nil h]
  simp [isNil, mergeEntries_nil]

/-- A closed witness discharging the hypotheses of merge_null_dst_overwrites
at a destination writing the key explicitly as null and a mapping source
value. -/
theorem merge_null_dst_overwrites_witness :
    mapFind? [(['a'], GoVal.nil)] ['a'] = some GoVal.nil ∧
    mergeMaps (.map [(['a'], GoVal.nil)])
        (.map [(['a'], GoVal.map [(['b'], GoVal.scalar ['2'])])])
      = .ok (.map (mapInsert [(['a'], GoVal.nil)] ['a']
          (GoVal.map [(['b'], GoVal.scalar ['2'])]))) :=
  ⟨by simp [mapFind?],
   merge_null_dst_overwrites [(['a'], GoVal.nil)] ['a']
     (GoVal.map [(['b'], GoVal.scalar ['2'])]) (by simp [mapFind?])⟩

/-- C4: Absent (nil) is a two-sided identity for merge, never erring, with
the double-nil case yielding nil; and folding zero documents produces the
nil merged root. -/
theorem merge_nil_identity :
    (∀ v : GoVal, mergeMaps .nil v = .ok v ∧ mergeMaps v .nil = .ok v) ∧
    mergeMaps .nil .nil = .ok .nil ∧
    newYAMLProviderCore [] = .ok .nil := by
  exact ⟨fun v => ⟨mergeMaps_nil_left v, mergeMaps_nil_right v⟩,
    mergeMaps_nil_left .nil, rfl⟩

/-- C3: a non-mapping, non-absent source merged onto a non-mapping or
absent destination yields the source outright, without error. -/
theorem merge_overwrite (dst src : GoVal)
    (hsm : isMap src = false) (hsn : src ≠ GoVal.nil)
    (hd : isMap dst = false ∨ dst = GoVal.nil) :
    mergeMaps dst src = .ok src := by
  by_cases hdn : dst = GoVal.nil
  · rw [hdn]
    exact mergeMaps_nil_left src
  · rw [mergeMaps.eq_def]
    rw [(isNil_false_iff dst).2 hdn, (isNil_false_iff src).2 hsn]
    simp only [Bool.false_eq_true, if_false]
    cases src with
    | nil => exact absurd rfl hsn
    | scalar s => rfl
    | arr elems => rfl
    | map entries => simp [isMap] at hsm

/-- A closed witness discharging the hypotheses of merge_overwrite at a
scalar destination and an array source. -/
theorem merge_overwrite_witness :
    isMap (GoVal.arr []) = false ∧ GoVal.arr [] ≠ GoVal.nil ∧
      (isMap (GoVal.scalar ['a']) = false ∨ GoVal.scalar ['a'] = GoVal.nil) ∧
      mergeMaps (GoVal.scalar ['a']) (GoVal.arr []) = .ok (GoVal.arr []) :=
  ⟨rfl, by simp, Or.inl rfl,
    merge_overwrite (GoVal.scalar ['a']) (GoVal.arr []) rfl (by simp) (Or.inl rfl)⟩

/-! ### Text expander -/

theorem firstIndexOf_eq_none (K : Str) (c : Char) (h : c ∉ K) :
    firstIndexOf K c = none := by
  induction K with
  | nil => rfl
  | cons x xs ih =>
    simp only [List.mem_cons] at h
    push_neg at h
    have hx : ¬x = c := fun hh => h.1 hh.symm
    rw [firstIndexOf]
    simp [hx, ih h.2]

theorem firstIndexOf_append_sep (K : Str) (c : Char) (h : c ∉ K) :
    firstIndexOf (K ++ [c]) c = some K.length := by
  induction K with
  | nil => simp [firstIndexOf]
  | cons x xs ih =>
    simp only [List.mem_cons] at h
    push_neg at h
    have hx : ¬x = c := fun hh => h.1 hh.symm
    rw [List.cons_append, firstIndexOf]
    simp [hx, ih h.2]

theorem splitToken_no_sep (K : Str) (h : _envSeparator ∉ K) :
    splitToken K = (K, []) := by
  rw [splitToken, firstIndexOf_eq_none K _envSeparator h]

theorem splitToken_trailing_sep (K : Str) (h : _envSeparator ∉ K) :
    splitToken (K ++ [_envSeparator]) = (K, []) := by
  rw [splitToken, firstIndexOf_append_sep K _envSeparator h]
  simp

/-- C6: resolution of a token whose body splits into key and default: a
found lookup value is substituted verbatim with the default ignored;
otherwise an empty default is an undefined-variable error naming the key,
the two-double-quote sentinel default substitutes the empty string, and any
other default is substituted verbatim. -/
theorem replace_resolution (lookUp : Str → Option Str) (inp : Str) :
    (∀ v, lookUp (splitToken inp).1 = some v → replace lookUp inp = .ok v) ∧
    (lookUp (splitToken inp).1 = none →
      (((splitToken inp).2 = [] →
          replace lookUp inp = .error (.undefinedVariable (splitToken inp).1)) ∧
       ((splitToken inp).2 = _emptyDefault → replace lookUp inp = .ok []) ∧
       ((splitToken inp).2 ≠ [] → (splitToken inp).2 ≠ _emptyDefault →
          replace lookUp inp = .ok (splitToken inp).2))) := by
  constructor
  · intro v hv
    simp [replace, hv]
  · intro hn
    refine ⟨?_, ?_, ?_⟩
    · intro hd
      simp [replace, hn, hd]
    · intro hd
      simp [replace, hn, hd, _emptyDefault]
    · intro h1 h2
      simp [replace, hn, h1, h2]

/-- A closed witness discharging the hypotheses of replace_resolution along
each branch: found key, missing key with default, missing key without
default, and missing key with the sentinel default. -/
theorem replace_resolution_witness :
    replace (fun k => if k = ['P'] then some ['9', '0', '9', '0'] else none)
        ['P', ':', '8', '0', '8', '0'] = .ok ['9', '0', '9', '0'] ∧
    replace (fun _ => none) ['P', ':', '8', '0', '8', '0'] = .ok ['8', '0', '8', '0'] ∧
    replace (fun _ => none) ['P'] = .error (.undefinedVariable ['P']) ∧
    replace (fun _ => none) ['P', ':', '"', '"'] = .ok [] := by
  refine ⟨(replace_resolution _ _).1 _ (by decide), ?_, ?_, ?_⟩
  · exact ((replace_resolution _ _).2 rfl).2.2 (by decide) (by decide)
  · exact ((replace_resolution _ _).2 rfl).1 (by decide)
  · exact ((replace_resolution _ _).2 rfl).2.1 (by decide)

/-- C10: a token body carrying the separator as its last character (an
explicitly written but empty default) behaves exactly like the bare key
without separator: when the lookup misses, both fail with the
undefined-variable error naming the key. -/
theorem replace_trailing_sep_like_no_default (lookUp : Str → Option Str) (K : Str)
    (hk : _envSeparator ∉ K) (hl : lookUp K = none) :
    replace lookUp (K ++ [_envSeparator]) = .error (.undefinedVariable K) ∧
    replace lookUp K = .error (.undefinedVariable K) := by
  constructor
  · simp [replace, splitToken_trailing_sep K hk, hl]
  · simp [replace, splitToken_no_sep K hk, hl]

/-- A closed witness discharging the hypotheses of
replace_trailing_sep_like_no_default at the key P. -/
theorem replace_trailing_sep_like_no_default_witness :
    _envSeparator ∉ (['P'] : Str) ∧
    (fun (_ : Str) => (none : Option Str)) ['P'] = none ∧
    replace (fun _ => none) (['P'] ++ [_envSeparator])
      = .error (.undefinedVariable ['P']) ∧
    replace (fun _ => none) ['P'] = .error (.undefinedVariable ['P']) := by
  refine ⟨by decide, rfl, ?_⟩
  exact replace_trailing_sep_like_no_default (fun _ => none) ['P'] (by decide) rfl

/-! ### Children memoization -/

theorem hget_concat (h : Heap) (l : List yamlNode) : hget (h ++ [l]) h.length = l := by
  simp [hget, List.get?_concat_length]

theorem hget_append_lt (h : Heap) (l : List yamlNode) (i : Nat) (hi : i < h.length) :
    hget (h ++ [l]) i = hget h i := by
  simp only [hget, List.get?_eq_getElem?]
  rw [List.getElem?_append_left hi]

theorem hget_set_ne (h : Heap) (i j : Nat) (l : List yamlNode) (hij : i ≠ j) :
    hget (hset h i l) j = hget h j := by
  simp only [hget, hset, List.get?_eq_getElem?]
  rw [List.getElem?_set_ne hij]


theorem Children_fresh_eq (n : yamlNodeState) (h : Heap) (hfresh : n.children = none) :
    Children n h = (h.length + 1, ⟨n.key, n.value, some h.length⟩,
      (h ++ [childrenOf n.value]) ++ [childrenOf n.value]) := by
  simp [Children, hfresh, halloc, hget_concat]

theorem Children_cached_eq (k : Str) (v : GoVal) (ci : Nat) (H : Heap) :
    Children ⟨k, v, some ci⟩ H = (H.length, ⟨k, v, some ci⟩, H ++ [hget H ci]) := by
  simp [Children, halloc]

theorem Children_memoized (n : yamlNodeState) (h : Heap) (l' : List yamlNode)
    (hfresh : n.children = none) :
    hget (Children n h).2.2 (Children n h).1 = childrenOf n.value ∧
    (Children (Children n h).2.1 (Children n h).2.2).2.1 = (Children n h).2.1 ∧
    hget (Children (Children n h).2.1 (Children n h).2.2).2.2
        (Children (Children n h).2.1 (Children n h).2.2).1
      = hget (Children n h).2.2 (Children n h).1 ∧
    hget (Children (Children n h).2.1 (hset (Children n h).2.2 (Children n h).1 l')).2.2
        (Children (Children n h).2.1 (hset (Children n h).2.2 (Children n h).1 l')).1
      = childrenOf n.value := by
  have len1 : h.length + 1 = (h ++ [childrenOf n.value]).length := by simp
  have hcc : hget ((h ++ [childrenOf n.value]) ++ [childrenOf n.value]) (h.length + 1)
      = childrenOf n.value := by
    rw [len1, hget_concat]
  have hc2 : hget ((h ++ [childrenOf n.value]) ++ [childrenOf n.value]) h.length
      = childrenOf n.value := by
    rw [hget_append_lt _ _ h.length (by simp), hget_concat]
  have hc2m : hget (hset ((h ++ [childrenOf n.value]) ++ [childrenOf n.value])
        (h.length + 1) l') h.length = childrenOf n.value := by
    rw [hget_set_ne _ _ _ _ (by omega), hc2]
  refine ⟨?_, ?_, ?_, ?_⟩
  · simp only [Children_fresh_eq n h hfresh]
    exact hcc
  · simp only [Children_fresh_eq n h hfresh, Children_cached_eq]
  · simp only [Children_fresh_eq n h hfresh, Children_cached_eq]
    rw [hget_concat, hcc, hc2]
  · simp only [Children_fresh_eq n h hfresh, Children_cached_eq]
    rw [hget_concat, hc2m]

/-- A closed witness discharging the hypothesis of Children_memoized on a
fresh object node over an empty heap, with the returned slice overwritten
by the empty slice. -/
theorem Children_memoized_witness :
    (yamlNodeState.mk ['R'] (GoVal.map [(['a'], GoVal.scalar ['1'])]) none).children
        = none ∧
    (hget (Children (yamlNodeState.mk ['R'] (GoVal.map [(['a'], GoVal.scalar ['1'])]) none) []).2.2
        (Children (yamlNodeState.mk ['R'] (GoVal.map [(['a'], GoVal.scalar ['1'])]) none) []).1
      = childrenOf (yamlNodeState.mk ['R'] (GoVal.map [(['a'], GoVal.scalar ['1'])]) none).value ∧
    (Children (Children (yamlNodeState.mk ['R'] (GoVal.map [(['a'], GoVal.scalar ['1'])]) none) []).2.1
        (Children (yamlNodeState.mk ['R'] (GoVal.map [(['a'], GoVal.scalar ['1'])]) none) []).2.2).2.1
      = (Children (yamlNodeState.mk ['R'] (GoVal.map [(['a'], GoVal.scalar ['1'])]) none) []).2.1 ∧
    hget (Children (Children (yamlNodeState.mk ['R'] (GoVal.map [(['a'], GoVal.scalar ['1'])]) none) []).2.1
        (Children (yamlNodeState.mk ['R'] (GoVal.map [(['a'], GoVal.scalar ['1'])]) none) []).2.2).2.2
        (Children (Children (yamlNodeState.mk ['R'] (GoVal.map [(['a'], GoVal.scalar ['1'])]) none) []).2.1
          (Children (yamlNodeState.mk ['R'] (GoVal.map [(['a'], GoVal.scalar ['1'])]) none) []).2.2).1
      = hget (Children (yamlNodeState.mk ['R'] (GoVal.map [(['a'], GoVal.scalar ['1'])]) none) []).2.2
          (Children (yamlNodeState.mk ['R'] (GoVal.map [(['a'], GoVal.scalar ['1'])]) none) []).1 ∧
    hget (Children (Children (yamlNodeState.mk ['R'] (GoVal.map [(['a'], GoVal.scalar ['1'])]) none) []).2.1
        (hset (Children (yamlNodeState.mk ['R'] (GoVal.map [(['a'], GoVal.scalar ['1'])]) none) []).2.2
          (Children (yamlNodeState.mk ['R'] (GoVal.map [(['a'], GoVal.scalar ['1'])]) none) []).1 [])).2.2
        (Children (Children (yamlNodeState.mk ['R'] (GoVal.map [(['a'], GoVal.scalar ['1'])]) none) []).2.1
          (hset (Children (yamlNodeState.mk ['R'] (GoVal.map [(['a'], GoVal.scalar ['1'])]) none) []).2.2
            (Children (yamlNodeState.mk ['R'] (GoVal.map [(['a'], GoVal.scalar ['1'])]) none) []).1 [])).1
      = childrenOf (yamlNodeState.mk ['R'] (GoVal.map [(['a'], GoVal.scalar ['1'])]) none).value) :=
  ⟨rfl, Children_memoized (yamlNodeState.mk ['R'] (GoVal.map [(['a'], GoVal.scalar ['1'])]) none) [] [] rfl⟩

/-- C1, divergence of the code from its own contract: merging a scalar
source onto a map destination silently returns the scalar instead of
failing (only the opposite direction, map source onto non-map destination,
errors with a conflict). -/
theorem mergeMaps_map_dst_scalar_src_no_error :
    mergeMaps (GoVal.map [(['a'], GoVal.scalar ['1'])]) (GoVal.scalar ['x'])
      = .ok (GoVal.scalar ['x']) ∧
    mergeMaps (GoVal.scalar ['x']) (GoVal.map [(['a'], GoVal.scalar ['1'])])
      = .error (.conflict (GoVal.scalar ['x'])
          (GoVal.map [(['a'], GoVal.scalar ['1'])])) := by
  constructor
  · rw [mergeMaps.eq_def]
    rfl
  · rw [mergeMaps.eq_def]
    rfl

/-! ### Lookup tree: loop vs candidate-list formulation (C5) -/

theorem lastIndexOf_lt_length (l : Str) (c : Char) (i : Nat)
    (h : lastIndexOf l c = some i) : i < l.length := by
  induction l generalizing i with
  | nil => simp [lastIndexOf] at h
  | cons x xs ih =>
    rw [lastIndexOf] at h
    cases hx : lastIndexOf xs c with
    | some j =>
      rw [hx] at h
      cases h
      simpa using Nat.succ_lt_succ (ih j hx)
    | none =>
      rw [hx] at h
      by_cases hc : x = c
      · simp [hc] at h
        simp only [List.length_cons]
        omega
      · simp [hc] at h

theorem findIter_zero (descend : yamlNode → Str → Option yamlNode)
    (cs : List yamlNode) (p curr : Str) (h0 : curr.length = 0) :
    findIter descend cs p curr = none := by
  rw [findIter]
  simp [h0]

theorem findIter_truncate (descend : yamlNode → Str → Option yamlNode)
    (cs : List yamlNode) (p curr : Str) (last : Nat) (h0 : ¬curr.length = 0)
    (hs : scanChildren descend cs p curr = none)
    (hl : lastIndexOf curr _separator = some last) (hpos : 0 < last) :
    findIter descend cs p curr = findIter descend cs p (curr.take last) := by
  rw [findIter]
  simp only [h0, if_false, if_neg, hs]
  split
  · next last' heq =>
    rw [hl] at heq
    cases heq
    simp [hpos]
  · next heq => simp [hl] at heq

theorem findIter_stop_zero (descend : yamlNode → Str → Option yamlNode)
    (cs : List yamlNode) (p curr : Str) (last : Nat) (h0 : ¬curr.length = 0)
    (hs : scanChildren descend cs p curr = none)
    (hl : lastIndexOf curr _separator = some last) (hpos : ¬0 < last) :
    findIter descend cs p curr = none := by
  rw [findIter]
  simp only [h0, if_false, if_neg, hs]
  split
  · next last' heq =>
    rw [hl] at heq
    cases heq
    simp [hpos]
  · next heq => simp [hl] at heq

theorem findIter_stop_none (descend : yamlNode → Str → Option yamlNode)
    (cs : List yamlNode) (p curr : Str) (h0 : ¬curr.length = 0)
    (hs : scanChildren descend cs p curr = none)
    (hl : lastIndexOf curr _separator = none) :
    findIter descend cs p curr = none := by
  rw [findIter]
  simp only [h0, if_false, if_neg, hs]
  split
  · next last' heq => simp [hl] at heq
  · next heq => rfl

theorem findIter_hit (descend : yamlNode → Str → Option yamlNode)
    (cs : List yamlNode) (p curr : Str) (h0 : ¬curr.length = 0)
    (node : yamlNode) (hs : scanChildren descend cs p curr = some node) :
    findIter descend cs p curr = some node := by
  rw [findIter]
  simp [h0, hs]

theorem truncations_zero (curr : Str) (h0 : curr.length = 0) :
    truncations curr = [] := by
  rw [truncations]
  simp [h0]

theorem truncations_cons_truncate (curr : Str) (last : Nat) (h0 : ¬curr.length = 0)
    (hl : lastIndexOf curr _separator = some last) (hpos : 0 < last) :
    truncations curr = curr :: truncations (curr.take last) := by
  rw [truncations]
  simp only [h0, if_false, if_neg]
  split
  · next last' heq =>
    rw [hl] at heq
    cases heq
    simp [hpos]
  · next heq => simp [hl] at heq

theorem truncations_single_zero (curr : Str) (last : Nat) (h0 : ¬curr.length = 0)
    (hl : lastIndexOf curr _separator = some last) (hpos : ¬0 < last) :
    truncations curr = [curr] := by
  rw [truncations]
  simp only [h0, if_false, if_neg]
  split
  · next last' heq =>
    rw [hl] at heq
    cases heq
    simp [hpos]
  · next heq => simp [hl] at heq

theorem truncations_single_none (curr : Str) (h0 : ¬curr.length = 0)
    (hl : lastIndexOf curr _separator = none) :
    truncations curr = [curr] := by
  rw [truncations]
  simp only [h0, if_false, if_neg]
  split
  · next last' heq => simp [hl] at heq
  · next heq => rfl

theorem findIter_eq_tryCands (descend : yamlNode → Str → Option yamlNode)
    (cs : List yamlNode) (p curr : Str) :
    findIter descend cs p curr
      = tryCands (fun c => scanChildren descend cs p c) (truncations curr) := by
  have main : ∀ (N : Nat) (curr : Str), curr.length < N →
      findIter descend cs p curr
        = tryCands (fun c => scanChildren descend cs p c) (truncations curr) := by
    intro N
    induction N with
    | zero => intro curr h; omega
    | succ N ih =>
      intro curr hlen
      by_cases h0 : curr.length = 0
      · rw [findIter_zero descend cs p curr h0, truncations_zero curr h0]
        rfl
      · cases hs : scanChildren descend cs p curr with
        | some node =>
          rw [findIter_hit descend cs p curr h0 node hs]
          cases hl : lastIndexOf curr _separator with
          | some last =>
            by_cases hpos : 0 < last
            · rw [truncations_cons_truncate curr last h0 hl hpos, tryCands, hs]
            · rw [truncations_single_zero curr last h0 hl hpos, tryCands, hs]
          | none => rw [truncations_single_none curr h0 hl, tryCands, hs]
        | none =>
          cases hl : lastIndexOf curr _separator with
          | some last =>
            by_cases hpos : 0 < last
            · rw [findIter_truncate descend cs p curr last h0 hs hl hpos,
                truncations_cons_truncate curr last h0 hl hpos, tryCands, hs]
              have hlast := lastIndexOf_lt_length curr _separator last hl
              refine ih (curr.take last) ?_
              simp only [List.length_take]
              omega
            · rw [findIter_stop_zero descend cs p curr last h0 hs hl hpos,
                truncations_single_zero curr last h0 hl hpos, tryCands, hs, tryCands]
          | none =>
            rw [findIter_stop_none descend cs p curr h0 hs hl,
              truncations_single_none curr h0 hl, tryCands, hs, tryCands]
  exact main (curr.length + 1) curr (by omega)

theorem scanChildren_congr (d1 d2 : yamlNode → Str → Option yamlNode)
    (hd : ∀ v q, d1 v q = d2 v q) (cs : List yamlNode) (p curr : Str) :
    scanChildren d1 cs p curr = scanChildren d2 cs p curr := by
  induction cs with
  | nil => rfl
  | cons v rest ih =>
    rw [scanChildren, scanChildren, hd, ih]

theorem tryCands_congr (s1 s2 : Str → Option yamlNode)
    (hs : ∀ c, s1 c = s2 c) (L : List Str) :
    tryCands s1 L = tryCands s2 L := by
  induction L with
  | nil => rfl
  | cons c rest ih =>
    rw [tryCands, tryCands, hs, ih]

theorem findFuel_eq_findSpecFuel (fuel : Nat) :
    ∀ (n : yamlNode) (p : Str), findFuel fuel n p = findSpecFuel fuel n p := by
  induction fuel with
  | zero => intro n p; rfl
  | succ f ih =>
    intro n p
    rw [findFuel, findSpecFuel, findIter_eq_tryCands]
    exact tryCands_congr _ _
      (fun c => scanChildren_congr _ _ (fun v q => ih v q) (childrenOf n.value) p c) _

/-- C5: Find implements the longest-match descent of the spec: it agrees
with the candidate-list formulation that tries each truncation of the
remaining path from longest to shortest, returns a matching child directly
when the candidate is the entire path at this call, descends on the suffix
after the matched prefix and its separator otherwise, and fails once no
shorter candidate remains. -/
theorem Find_eq_FindSpec (n : yamlNode) (p : Str) : Find n p = FindSpec n p := by
  rw [Find, FindSpec, findFuel_eq_findSpecFuel]

/-! ### Case-insensitivity of Find (C7) -/

theorem charCaseVar_toLower (a b : Char) (h : charCaseVar a b = true) :
    a.toLower = b.toLower := by
  rw [charCaseVar, Bool.or_eq_true] at h
  cases h with
  | inl h => rw [eq_of_beq h]
  | inr h =>
    simp only [Bool.and_eq_true] at h
    exact eq_of_beq h.2

theorem charCaseVar_sep_iff (a b : Char) (h : charCaseVar a b = true) :
    a = _separator ↔ b = _separator := by
  rw [charCaseVar, Bool.or_eq_true] at h
  cases h with
  | inl h => rw [eq_of_beq h]
  | inr h =>
    simp only [Bool.and_eq_true] at h
    obtain ⟨⟨h1, h2⟩, _⟩ := h
    constructor
    · intro ha
      rw [ha] at h1
      exact absurd h1 (by decide)
    · intro hb
      rw [hb] at h2
      exact absurd h2 (by decide)

theorem pathCaseVar_length (p q : Str) (h : pathCaseVar p q = true) :
    p.length = q.length := by
  induction p generalizing q with
  | nil => cases q with
    | nil => rfl
    | cons b bs => simp [pathCaseVar] at h
  | cons a as ih =>
    cases q with
    | nil => simp [pathCaseVar] at h
    | cons b bs =>
      rw [pathCaseVar] at h
      simp only [Bool.and_eq_true] at h
      simp [ih bs h.2]

theorem pathCaseVar_toLower (p q : Str) (h : pathCaseVar p q = true) :
    p.map Char.toLower = q.map Char.toLower := by
  induction p generalizing q with
  | nil => cases q with
    | nil => rfl
    | cons b bs => simp [pathCaseVar] at h
  | cons a as ih =>
    cases q with
    | nil => simp [pathCaseVar] at h
    | cons b bs =>
      rw [pathCaseVar] at h
      simp only [Bool.and_eq_true] at h
      simp [charCaseVar_toLower a b h.1, ih bs h.2]

theorem pathCaseVar_take (p q : Str) (m : Nat) (h : pathCaseVar p q = true) :
    pathCaseVar (p.take m) (q.take m) = true := by
  induction p generalizing q m with
  | nil => cases q with
    | nil => simp [pathCaseVar]
    | cons b bs => simp [pathCaseVar] at h
  | cons a as ih =>
    cases q with
    | nil => simp [pathCaseVar] at h
    | cons b bs =>
      rw [pathCaseVar] at h
      simp only [Bool.and_eq_true] at h
      cases m with
      | zero => simp [pathCaseVar]
      | succ m' =>
        simp only [List.take_succ_cons]
        rw [pathCaseVar]
        simp [h.1, ih bs m' h.2]

theorem pathCaseVar_drop (p q : Str) (m : Nat) (h : pathCaseVar p q = true) :
    pathCaseVar (p.drop m) (q.drop m) = true := by
  induction p generalizing q m with
  | nil => cases q with
    | nil => simp [pathCaseVar]
    | cons b bs => simp [pathCaseVar] at h
  | cons a as ih =>
    cases q with
    | nil => simp [pathCaseVar] at h
    | cons b bs =>
      rw [pathCaseVar] at h
      simp only [Bool.and_eq_true] at h
      cases m with
      | zero =>
        rw [List.drop_zero, List.drop_zero, pathCaseVar]
        simp [h.1, h.2]
      | succ m' =>
        simp only [List.drop_succ_cons]
        exact ih bs m' h.2

theorem lastIndexOf_caseVar (p q : Str) (h : pathCaseVar p q = true) :
    lastIndexOf p _separator = lastIndexOf q _separator := by
  induction p generalizing q with
  | nil => cases q with
    | nil => rfl
    | cons b bs => simp [pathCaseVar] at h
  | cons a as ih =>
    cases q with
    | nil => simp [pathCaseVar] at h
    | cons b bs =>
      rw [pathCaseVar] at h
      simp only [Bool.and_eq_true] at h
      rw [lastIndexOf, lastIndexOf, ih bs h.2]
      cases lastIndexOf bs _separator with
      | some i => rfl
      | none =>
        have hsep := charCaseVar_sep_iff a b h.1
        by_cases ha : a = _separator
        · simp [ha, hsep.mp ha]
        · have hb : ¬b = _separator := fun hh => ha (hsep.mpr hh)
          simp [ha, hb]

theorem eqFold_caseVar (key a b : Str) (h : pathCaseVar a b = true) :
    eqFold key a = eqFold key b := by
  rw [eqFold, eqFold, pathCaseVar_toLower a b h]

theorem take_eq_self_iff_length_le (p : Str) (m : Nat) :
    p.take m = p ↔ p.length ≤ m := by
  constructor
  · intro h
    have := congrArg List.length h
    simp only [List.length_take] at this
    omega
  · intro h
    exact List.take_of_length_le h

theorem beq_congr_str (x y x' y' : Str) (h : x = y ↔ x' = y') :
    (x == y) = (x' == y') := by
  by_cases hxy : x = y
  · have h2 : x' = y' := h.mp hxy
    rw [hxy, h2]
    simp
  · have h2 : ¬x' = y' := fun hh => hxy (h.mpr hh)
    rw [Bool.eq_iff_iff]
    simp [hxy, h2]

theorem scanChildren_caseVar (descend : yamlNode → Str → Option yamlNode)
    (hdesc : ∀ v a b, pathCaseVar a b = true → descend v a = descend v b)
    (cs : List yamlNode) (p q : Str) (m : Nat) (hpq : pathCaseVar p q = true) :
    scanChildren descend cs p (p.take m) = scanChildren descend cs q (q.take m) := by
  have hlen : p.length = q.length := pathCaseVar_length p q hpq
  induction cs with
  | nil => rfl
  | cons v rest ih =>
    rw [scanChildren, scanChildren]
    rw [eqFold_caseVar v.key (p.take m) (q.take m) (pathCaseVar_take p q m hpq)]
    by_cases hef : eqFold v.key (q.take m) = true
    · simp only [hef, if_true]
      have hbeq : (p.take m == p) = (q.take m == q) := by
        apply beq_congr_str
        rw [take_eq_self_iff_length_le, take_eq_self_iff_length_le, hlen]
      rw [hbeq]
      by_cases hwhole : (q.take m == q) = true
      · simp [hwhole]
      · simp only [Bool.not_eq_true] at hwhole
        rw [hwhole]
        simp only [Bool.false_eq_true, if_false]
        have hlt : (p.take m).length = (q.take m).length := by
          simp [List.length_take, hlen]
        rw [hlt]
        rw [hdesc v (p.drop ((q.take m).length + 1)) (q.drop ((q.take m).length + 1))
          (pathCaseVar_drop p q _ hpq)]
        cases descend v (q.drop ((q.take m).length + 1)) with
        | some node => rfl
        | none => exact ih
    · simp only [Bool.not_eq_true] at hef
      rw [hef]
      simp only [Bool.false_eq_true, if_false]
      exact ih

theorem findIter_caseVar (descend : yamlNode → Str → Option yamlNode)
    (hdesc : ∀ v a b, pathCaseVar a b = true → descend v a = descend v b)
    (cs : List yamlNode) (p q : Str) (hpq : pathCaseVar p q = true) :
    ∀ m, findIter descend cs p (p.take m) = findIter descend cs q (q.take m) := by
  have hlen : p.length = q.length := pathCaseVar_length p q hpq
  have main : ∀ (N : Nat) (m : Nat), m < N →
      findIter descend cs p (p.take m) = findIter descend cs q (q.take m) := by
    intro N
    induction N with
    | zero => intro m hm; omega
    | succ N ih =>
      intro m hm
      have hclen : (p.take m).length = (q.take m).length := by
        simp [List.length_take, hlen]
      by_cases h0 : (p.take m).length = 0
      · rw [findIter_zero descend cs p (p.take m) h0,
          findIter_zero descend cs q (q.take m) (by rw [← hclen]; exact h0)]
      · have h0q : ¬(q.take m).length = 0 := by rw [← hclen]; exact h0
        have hscan := scanChildren_caseVar descend hdesc cs p q m hpq
        cases hs : scanChildren descend cs q (q.take m) with
        | some node =>
          rw [findIter_hit descend cs p (p.take m) h0 node (hscan.trans hs),
            findIter_hit descend cs q (q.take m) h0q node hs]
        | none =>
          have hsp : scanChildren descend cs p (p.take m) = none := hscan.trans hs
          have hli := lastIndexOf_caseVar (p.take m) (q.take m)
            (pathCaseVar_take p q m hpq)
          cases hl : lastIndexOf (q.take m) _separator with
          | some last =>
            by_cases hpos : 0 < last
            · rw [findIter_truncate descend cs p (p.take m) last h0 hsp
                  (hli.trans hl) hpos,
                findIter_truncate descend cs q (q.take m) last h0q hs hl hpos]
              have hlast := lastIndexOf_lt_length (q.take m) _separator last hl
              have hlastm : last < m := by
                simp only [List.length_take] at hlast
                omega
              rw [List.take_take, List.take_take]
              have hmin : min last m = last := by omega
              rw [hmin]
              exact ih last (by omega)
            · rw [findIter_stop_zero descend cs p (p.take m) last h0 hsp
                  (hli.trans hl) hpos,
                findIter_stop_zero descend cs q (q.take m) last h0q hs hl hpos]
          | none =>
            rw [findIter_stop_none descend cs p (p.take m) h0 hsp (hli.trans hl),
              findIter_stop_none descend cs q (q.take m) h0q hs hl]
  intro m
  exact main (m + 1) m (by omega)

theorem findFuel_caseVar (fuel : Nat) :
    ∀ (n : yamlNode) (p q : Str), pathCaseVar p q = true →
      findFuel fuel n p = findFuel fuel n q := by
  induction fuel with
  | zero => intro n p q _; rfl
  | succ f ih =>
    intro n p q hpq
    have hlen : p.length = q.length := pathCaseVar_length p q hpq
    rw [findFuel, findFuel]
    have := findIter_caseVar (findFuel f) (fun v a b hab => ih v a b hab)
      (childrenOf n.value) p q hpq p.length
    rw [List.take_length] at this
    rw [hlen, List.take_length] at this
    exact this

/-- C7: path matching is case-insensitive throughout: two paths differing
only in letter case resolve to the same node against the same tree. -/
theorem Find_caseInsensitive (n : yamlNode) (p q : Str)
    (h : pathCaseVar p q = true) : Find n p = Find n q := by
  rw [Find, Find, pathCaseVar_length p q h]
  exact findFuel_caseVar (q.length + 1) n p q h

/-- A closed witness discharging the hypothesis of Find_caseInsensitive on
the spec example: querying A.B and a.b against a tree with keys A and b. -/
theorem Find_caseInsensitive_witness :
    pathCaseVar ['A', '.', 'B'] ['a', '.', 'b'] = true ∧
    Find ⟨['R'], GoVal.map [(['A'], GoVal.map [(['b'], GoVal.scalar ['1'])])]⟩
        ['A', '.', 'B']
      = Find ⟨['R'], GoVal.map [(['A'], GoVal.map [(['b'], GoVal.scalar ['1'])])]⟩
          ['a', '.', 'b'] :=
  ⟨by decide,
   Find_caseInsensitive
     ⟨['R'], GoVal.map [(['A'], GoVal.map [(['b'], GoVal.scalar ['1'])])]⟩
     ['A', '.', 'B'] ['a', '.', 'b'] (by decide)⟩

end Config
